import Mathlib

/-!
Verification of the KiTS19 slice-indexing dataset, a shallow embedding of
`src/dataset/kits19.py`.

Modelling conventions:
* A slice file on disk is identified by its coordinates `(case id, z index)`;
  the external array loader is abstracted away, so a loaded slice is
  represented by its reference.  For a case id `c` with `rawCount c` slice
  files, the sorted directory listing is `sliceRefs c (rawCount c)` (the files
  are named in z-order, which is the caller contract assumed by the source).
* Python `dict`/file-system failures (`KeyError` on a missing ROI entry,
  `IndexError` on list indexing) are modelled by `Option`: a computation that
  would raise returns `none`.
* Python list slicing `l[lo:hi]` with non-negative bounds is `(l.drop lo).take
  (hi - lo)`; Python indexing `l[i]` with a possibly negative `i` is `pyGet`.
* ROI `min_z`/`max_z` are z indices, modelled as `Nat`; the source's
  `max(min_z, roi.min_z - e)` with initial `min_z = 0` is exactly truncated
  `Nat` subtraction `roi.min_z - e`.
-/

namespace KiTS19

/-- A slice-file reference: (case id, z index inside the case directory). -/
abbrev Ref := Nat × Nat

/-- Per-case kidney ROI record `{min_z, max_z}` from the roi table (`roi.json`). -/
structure ROI where
  min_z : Nat
  max_z : Nat
deriving DecidableEq

/-- Constructor arguments of `KiTS19.__init__` together with the external
file-system contents: `rawCount c` is the number of `.npy` files in case `c`'s
imaging (and segmentation) directory, the three case lists are the parsed
subset id files, `rois` is the parsed roi table (an association list keyed by
case id) when a `roi_file` was configured. -/
structure Config where
  rawCount : Nat → Nat
  train_case : List Nat
  valid_case : List Nat
  test_case : List Nat
  rois : Option (List (Nat × ROI))
  roi_error_range : Nat
  stack_num : Nat
  spec_classes : List Nat

/-- The dataset state built by `_get_data` (fields of the `KiTS19` object that
the per-access reads consult). -/
structure Dataset where
  imgs : List Ref
  labels : List Ref
  train_indices : List Nat
  valid_indices : List Nat
  test_indices : List Nat
  case_slice_indices : List Nat
  rois : Option (List (Nat × ROI))
  stack_num : Nat
deriving DecidableEq

/-- Lookup `tbl[case id]` in the roi table; `none` models Python's `KeyError`. -/
def lookupRoi (tbl : List (Nat × ROI)) (c : Nat) : Option ROI :=
  (tbl.find? (fun p => p.1 == c)).map (fun p => p.2)

/-- `sorted(imaging_dir.glob(star.npy))` for case `c` with `L` slice files:
the references in z-order. -/
def sliceRefs (c L : Nat) : List Ref :=
  (List.range L).map (fun z => (c, z))

/-- The trim bounds computed in `_read_npy` when an ROI is present:
`min_z = max(0, roi.min_z - e)` (truncated subtraction) and
`max_z = min(L, roi.max_z + e)`. -/
def trimBounds (L : Nat) (roi : ROI) (e : Nat) : Nat × Nat :=
  (roi.min_z - e, min L (roi.max_z + e))

/-- The `[min_z, max_z)` bounds `_read_npy` slices a case's file list with:
`(0, L)` when no roi table is configured, otherwise derived from the case's
ROI entry (failing like the source's `KeyError` when the entry is missing). -/
def trimOf (cfg : Config) (c : Nat) : Option (Nat × Nat) :=
  match cfg.rois with
  | none => some (0, cfg.rawCount c)
  | some tbl =>
    (lookupRoi tbl c).map (fun roi => trimBounds (cfg.rawCount c) roi cfg.roi_error_range)

/-- One iteration of `_read_npy`'s loop body for case `c`: the trimmed image
list, the trimmed label list (empty when `is_test`), and the per-case slice
count `len(case_imgs)` appended to `case_slice_num`. -/
def read_case (cfg : Config) (c : Nat) (t : Bool) : Option (List Ref × List Ref × Nat) :=
  (trimOf cfg c).map (fun p =>
    let case_imgs := ((sliceRefs c (cfg.rawCount c)).drop p.1).take (p.2 - p.1)
    let case_labels :=
      if t then [] else ((sliceRefs c (cfg.rawCount c)).drop p.1).take (p.2 - p.1)
    (case_imgs, case_labels, case_imgs.length))

/-- `_read_npy(root, cases, is_test)`: concatenated trimmed image references,
concatenated trimmed label references, and per-case slice counts. -/
def read_npy (cfg : Config) : List Nat → Bool → Option (List Ref × List Ref × List Nat)
  | [], _ => some ([], [], [])
  | c :: rest, t => do
    let (ci, cl, n) ← read_case cfg c t
    let (ri, rl, rn) ← read_npy cfg rest t
    some (ci ++ ri, cl ++ rl, n :: rn)

/-- The running-sum loop of `_get_data` that extends `_case_slice_indices`:
`cumAcc nums idx` is the list of partial sums `idx + nums[0] + ... + nums[i]`. -/
def cumAcc : List Nat → Nat → List Nat
  | [], _ => []
  | n :: rest, acc => (acc + n) :: cumAcc rest (acc + n)

/-- `_case_slice_indices`: starts at `[0]`, then one cumulative count per case. -/
def cumSum (l : List Nat) : List Nat := 0 :: cumAcc l 0

/-- `_get_data`: reads the three subsets, concatenates images and labels
(train, then valid, then test), slices `_indices = range(len(imgs))` into the
three subset index lists, and accumulates `_case_slice_indices`. -/
def get_data (cfg : Config) : Option Dataset := do
  let (train_imgs, train_labels, train_n) ← read_npy cfg cfg.train_case false
  let (valid_imgs, valid_labels, valid_n) ← read_npy cfg cfg.valid_case false
  let (test_imgs, test_labels, test_n) ← read_npy cfg cfg.test_case true
  let imgs := train_imgs ++ valid_imgs ++ test_imgs
  let labels := train_labels ++ valid_labels ++ test_labels
  let indices := List.range imgs.length
  some { imgs := imgs
         labels := labels
         train_indices := indices.take train_imgs.length
         valid_indices := (indices.drop train_imgs.length).take valid_imgs.length
         test_indices := (indices.drop (train_imgs.length + valid_imgs.length)).take test_imgs.length
         case_slice_indices := cumSum (train_n ++ valid_n ++ test_n)
         rois := cfg.rois
         stack_num := cfg.stack_num }

/-- The per-case slice counts in case order (train, valid, test), i.e. the
numbers `_get_data` folds into `_case_slice_indices`. -/
def case_counts (cfg : Config) : Option (List Nat) := do
  let (_, _, tn) ← read_npy cfg cfg.train_case false
  let (_, _, vn) ← read_npy cfg cfg.valid_case false
  let (_, _, sn) ← read_npy cfg cfg.test_case true
  some (tn ++ vn ++ sn)

/-- The search loop of `img_idx_to_case_idx`: scan consecutive boundary pairs,
returning the loop counter of the first bracketing pair (the Python `break`). -/
def locateFrom (idx : Int) : List Nat → Nat → Option Nat
  | b0 :: b1 :: rest, i =>
    if (b0 : Int) ≤ idx ∧ idx < (b1 : Int) then some i
    else locateFrom idx (b1 :: rest) (i + 1)
  | _, _ => none

/-- `img_idx_to_case_idx(idx)`: `case_idx` starts at 0 and is only overwritten
when some boundary pair brackets `idx`, so an unbracketed `idx` yields 0. -/
def img_idx_to_case_idx (ds : Dataset) (idx : Int) : Nat :=
  (locateFrom idx ds.case_slice_indices 0).getD 0

/-- Python `range(a, b)` over integers. -/
def intRange (a b : Int) : List Int :=
  (List.range (b - a).toNat).map (fun k => a + k)

/-- The window `range(idx - stack_num // 2, idx + stack_num // 2 + 1)` of
`get_stack_img`. -/
def windowRange (ds : Dataset) (idx : Int) : List Int :=
  intRange (idx - (ds.stack_num / 2 : Nat)) (idx + (ds.stack_num / 2 : Nat) + 1)

/-- The clamping in `get_stack_img`'s loop body: an index below the case's
first slice becomes the first slice, one at or past the case's end becomes the
last slice. -/
def clampToCase (lo hi i : Int) : Int :=
  if i < lo then lo else if hi ≤ i then hi - 1 else i

/-- The raw slice indices `get_stack_img` actually reads: the centered window,
each entry clamped to the owning case's boundary pair
`[case_slice_indices[c], case_slice_indices[c+1])`. -/
def stack_indices (ds : Dataset) (idx : Int) : Option (List Int) := do
  let case_idx := img_idx_to_case_idx ds idx
  let lo ← ds.case_slice_indices[case_idx]?
  let hi ← ds.case_slice_indices[case_idx + 1]?
  some ((windowRange ds idx).map (clampToCase (lo : Int) (hi : Int)))

/-- Python list indexing `l[i]` (negative indices count from the end;
out-of-range raises, modelled by `none`). -/
def pyGet {α : Type} (l : List α) (i : Int) : Option α :=
  if 0 ≤ i then l[i.toNat]?
  else if 0 ≤ (l.length : Int) + i then l[((l.length : Int) + i).toNat]?
  else none

/-- The label branch of `get_stack_img`: `None` (without touching `_labels`)
when `idx` is a test index, otherwise the single label slice `_labels[idx]`. -/
def stack_label (ds : Dataset) (idx : Int) : Option (Option Ref) :=
  if idx ∈ ds.test_indices.map (fun n : Nat => (n : Int)) then some none
  else (pyGet ds.labels idx).map (fun l => some l)

/-- The roi branch of `get_stack_img`: `None` when no roi table is configured,
otherwise the table entry keyed by `case_{case_idx:05d}` — note the source
builds the key from the case ORDINAL `case_idx`, not the case id. -/
def stack_roi (ds : Dataset) (case_idx : Nat) : Option (Option ROI) :=
  match ds.rois with
  | none => some none
  | some tbl => (lookupRoi tbl case_idx).map (fun r => some r)

/-- The value returned by one `get_stack_img` access. -/
structure Sample where
  image : List Ref
  label : Option Ref
  index : Int
  roi : Option ROI
deriving DecidableEq

/-- `get_stack_img(idx)`: locate the owning case, read the clamped window of
image slices, attach the (single, unwindowed) label slice unless `idx` is a
test index, and attach the roi entry keyed by the case ordinal. -/
def get_stack_img (ds : Dataset) (idx : Int) : Option Sample := do
  let case_idx := img_idx_to_case_idx ds idx
  let sidx ← stack_indices ds idx
  let imgs ← sidx.mapM (fun i => pyGet ds.imgs i)
  let label ← stack_label ds idx
  let roi ← stack_roi ds case_idx
  some { image := imgs, label := label, index := idx, roi := roi }

/-- `get_stack_img` with the object state threaded explicitly: the method body
contains no assignment to any `self` attribute, so the state it finishes with
is the state it started from. -/
def get_stack_img_state (ds : Dataset) (idx : Int) : Option (Sample × Dataset) :=
  (get_stack_img ds idx).map (fun s => (s, ds))

/-- The three externally supplied transforms of `__init__` (each optional). -/
structure Transforms where
  train : Option (Sample → Sample)
  valid : Option (Sample → Sample)
  test : Option (Sample → Sample)

/-- Apply an optional transform (`None` means leave the sample unchanged). -/
def applyTf : Option (Sample → Sample) → Sample → Sample
  | some f, s => f s
  | none, s => s

/-- `__getitem__(idx)` with the object state threaded explicitly: fetch the
stacked sample, run the subset-selected configured transform (the `elif`
chain), then the default transform `dft` (whose resize / tensor conversion /
label-array remapping acts on the transient sample only, abstracted here as an
arbitrary function of the sample). -/
def getItem (tf : Transforms) (dft : Sample → Sample) (ds : Dataset) (idx : Int) :
    Option (Sample × Dataset) := do
  let (s, ds1) ← get_stack_img_state ds idx
  let s1 :=
    if idx ∈ ds1.train_indices.map (fun n : Nat => (n : Int)) ∧ tf.train.isSome then
      applyTf tf.train s
    else if idx ∈ ds1.valid_indices.map (fun n : Nat => (n : Int)) ∧ tf.valid.isSome then
      applyTf tf.valid s
    else if idx ∈ ds1.test_indices.map (fun n : Nat => (n : Int)) ∧ tf.test.isSome then
      applyTf tf.test s
    else s
  some (dft s1, ds1)

/-- The first-occurrence-order deduplication loop used for `spec_class_idx`
in `_default_transform` and for the name list in `get_classes_name`. -/
def dedupFold {α : Type} [DecidableEq α] (l : List α) : List α :=
  l.foldl (fun acc i => if i ∈ acc then acc else acc ++ [i]) []

/-- The label remapping of `_default_transform`: identity when
`spec_classes == [0, 1, 2]`; otherwise the masks `where(label == i)` for
`i in range(3)` are computed from the original array, and each masked region
is overwritten with `spec_class_idx.index(spec_classes[i])`. -/
def remapLabel (spec : List Nat) (label : List Nat) : List Nat :=
  if spec = [0, 1, 2] then label
  else
    let spec_class_idx := dedupFold spec
    ((List.range 3).zip spec).foldl
      (fun cur p =>
        List.zipWith (fun o x => if o = p.1 then spec_class_idx.indexOf p.2 else x) label cur)
      label

/-- The canonical class names of `get_classes_name(spec=False)`. -/
def classes_name : List String := ["background", "kidney", "tumor"]

/-- `get_classes_name(spec=True)`: index the canonical names by the configured
`spec_classes` and deduplicate preserving first occurrence. -/
def get_classes_name (spec : List Nat) : List String :=
  dedupFold (spec.map (fun i => classes_name.getD i ""))

/-- The visible-slice count of a case under ROI trimming: upper trim bound
minus lower trim bound (the length of the slice `_read_npy` keeps). -/
def visCount (L : Nat) (roi : ROI) (e : Nat) : Nat :=
  (trimBounds L roi e).2 - (trimBounds L roi e).1

/-! ### Concrete configurations used as test vectors -/

/-- Two cases with raw slice counts 10 and 6 (ids 1 and 2), train=[1],
valid=[2], no ROI table, stack width 3 (spec section 8, item 6). -/
def cfgC8 : Config :=
  { rawCount := fun c => if c = 1 then 10 else 6
    train_case := [1], valid_case := [2], test_case := []
    rois := none, roi_error_range := 0, stack_num := 3, spec_classes := [0, 1, 2] }

/-- The dataset `get_data` builds from `cfgC8`. -/
def dsC8 : Dataset :=
  { imgs := sliceRefs 1 10 ++ sliceRefs 2 6
    labels := sliceRefs 1 10 ++ sliceRefs 2 6
    train_indices := List.range 10
    valid_indices := List.range' 10 6
    test_indices := []
    case_slice_indices := [0, 10, 16]
    rois := none, stack_num := 3 }

/-- Two train cases with ids [1, 0] (so case ordinals and case ids disagree),
each with 3 raw slices and an ROI entry; case id 0's ROI trims to 2 slices. -/
def cfgC2 : Config :=
  { rawCount := fun _ => 3
    train_case := [1, 0], valid_case := [], test_case := []
    rois := some [(1, ⟨0, 3⟩), (0, ⟨1, 3⟩)], roi_error_range := 0, stack_num := 1
    spec_classes := [0, 1, 2] }

/-- One 10-slice train case with ROI {min_z: 2, max_z: 8} and error range 1
(spec section 8, item 7: effective visible range [1, 9), 8 slices). -/
def cfgC5 : Config :=
  { rawCount := fun _ => 10
    train_case := [0], valid_case := [], test_case := []
    rois := some [(0, ⟨2, 8⟩)], roi_error_range := 1, stack_num := 1
    spec_classes := [0, 1, 2] }

/-- The trimmed reference list `read_case` produces for `cfgC5`'s case 0. -/
def iC5 : List Ref := (List.range' 1 8).map (fun z => ((0 : Nat), z))

/-- No configured transforms (`train_transform = valid_transform =
test_transform = None`). -/
def tfNone : Transforms := ⟨none, none, none⟩

/-- The sample returned for global index 0 of `dsC8`: window [-1, 0, 1]
clamps to [0, 0, 1]. -/
def sC8 : Sample :=
  { image := [(1, 0), (1, 0), (1, 1)], label := some (1, 0), index := 0, roi := none }

/-! ### General list helper lemmas -/

/-- Pointwise description of `List.zipWith`. -/
theorem zipWith_getElem? {α β γ : Type} (f : α → β → γ) :
    ∀ (a : List α) (b : List β) (j : Nat),
      (List.zipWith f a b)[j]? = a[j]?.bind (fun x => b[j]?.map (f x)) := by
  intro a
  induction a with
  | nil => intro b j; simp
  | cons x xs ih =>
    intro b j
    cases b with
    | nil => simp
    | cons y ys =>
      cases j with
      | zero => simp
      | succ j => simpa using ih ys j

/-- Anything in the accumulator or in the remaining input ends up in the
first-occurrence deduplication fold. -/
theorem mem_dedup_aux {α : Type} [DecidableEq α] :
    ∀ (l acc : List α) (x : α), x ∈ acc ∨ x ∈ l →
      x ∈ l.foldl (fun a i => if i ∈ a then a else a ++ [i]) acc := by
  intro l
  induction l with
  | nil =>
    intro acc x h
    rcases h with h | h
    · simpa using h
    · simp at h
  | cons a t ih =>
    intro acc x h
    rw [List.foldl_cons]
    apply ih
    rcases h with h | h
    · left
      by_cases ha : a ∈ acc
      · simpa [ha] using h
      · simp [ha]
        exact Or.inl h
    · rcases List.mem_cons.mp h with rfl | h
      · left
        by_cases ha : x ∈ acc <;> simp [ha]
      · exact Or.inr h

/-- Membership is preserved by `dedupFold`. -/
theorem mem_dedupFold {α : Type} [DecidableEq α] (l : List α) (x : α) (hx : x ∈ l) :
    x ∈ dedupFold l :=
  mem_dedup_aux l [] x (Or.inr hx)

/-! ### Cumulative-boundary lemmas -/

theorem cumAcc_chain (l : List Nat) :
    ∀ acc : Nat, List.Chain' (· ≤ ·) (acc :: cumAcc l acc) := by
  induction l with
  | nil => intro acc; simp [cumAcc]
  | cons n rest ih =>
    intro acc
    rw [cumAcc]
    exact List.chain'_cons.mpr ⟨Nat.le_add_right acc n, ih (acc + n)⟩

/-- The boundary table is non-decreasing. -/
theorem cumSum_sorted (l : List Nat) : List.Sorted (· ≤ ·) (cumSum l) := by
  have h := cumAcc_chain l 0
  rw [List.chain'_iff_pairwise] at h
  exact h

theorem cumAcc_getLast (l : List Nat) :
    ∀ acc : Nat, (acc :: cumAcc l acc).getLast? = some (acc + l.sum) := by
  induction l with
  | nil => intro acc; simp [cumAcc]
  | cons n rest ih =>
    intro acc
    rw [cumAcc, List.getLast?_cons_cons, ih (acc + n)]
    simp [List.sum_cons, Nat.add_assoc]

/-- The boundary table ends at the total slice count. -/
theorem cumSum_getLast (l : List Nat) : (cumSum l).getLast? = some l.sum := by
  have h := cumAcc_getLast l 0
  rw [cumSum, h]
  simp

theorem cumAcc_get_succ (l : List Nat) :
    ∀ (acc i ci : Nat), l[i]? = some ci →
      ∃ bi, (acc :: cumAcc l acc)[i]? = some bi ∧
        (acc :: cumAcc l acc)[i + 1]? = some (bi + ci) := by
  induction l with
  | nil => intro acc i ci h; simp at h
  | cons n rest ih =>
    intro acc i ci h
    cases i with
    | zero =>
      rw [List.getElem?_cons_zero] at h
      cases h
      exact ⟨acc, by simp, by simp [cumAcc]⟩
    | succ i =>
      rw [List.getElem?_cons_succ] at h
      obtain ⟨bi, h1, h2⟩ := ih (acc + n) i ci h
      refine ⟨bi, ?_, ?_⟩
      · rw [cumAcc, List.getElem?_cons_succ]
        exact h1
      · rw [cumAcc, List.getElem?_cons_succ]
        exact h2

theorem cumSum_get_succ (l : List Nat) (i ci : Nat) (h : l[i]? = some ci) :
    ∃ bi, (cumSum l)[i]? = some bi ∧ (cumSum l)[i + 1]? = some (bi + ci) :=
  cumAcc_get_succ l 0 i ci h

theorem cumSum_get_zero (l : List Nat) : (cumSum l)[0]? = some 0 := by
  simp [cumSum]

/-! ### Sorted-list bracket lemmas -/

theorem sorted_get_mono (b : List Nat) (hs : List.Sorted (· ≤ ·) b)
    (i j x y : Nat) (hij : i ≤ j) (hx : b[i]? = some x) (hy : b[j]? = some y) :
    x ≤ y := by
  obtain ⟨hjl, hyv⟩ := List.getElem?_eq_some.mp hy
  obtain ⟨hil, hxv⟩ := List.getElem?_eq_some.mp hx
  rcases Nat.eq_or_lt_of_le hij with rfl | hlt
  · omega
  · have hr := hs.rel_get_of_lt (a := ⟨i, hil⟩) (b := ⟨j, hjl⟩) hlt
    simp only [List.get_eq_getElem] at hr
    omega

/-- Every member of a non-decreasing list is bounded by its last element. -/
theorem sorted_le_getLast (b : List Nat) (hs : List.Sorted (· ≤ ·) b)
    (i x bl : Nat) (hx : b[i]? = some x) (hl : b.getLast? = some bl) : x ≤ bl := by
  rw [List.getLast?_eq_getElem?] at hl
  obtain ⟨hil, _⟩ := List.getElem?_eq_some.mp hx
  exact sorted_get_mono b hs i (b.length - 1) x bl (by omega) hx hl

/-- For a non-decreasing boundary list, the bracketing ordinal is unique. -/
theorem bracket_unique (b : List Nat) (hs : List.Sorted (· ≤ ·) b) (idx : Int)
    (c lo hi c2 lo2 hi2 : Nat)
    (h1 : b[c]? = some lo) (h2 : b[c + 1]? = some hi)
    (h3 : (lo : Int) ≤ idx) (h4 : idx < (hi : Int))
    (h5 : b[c2]? = some lo2) (h6 : b[c2 + 1]? = some hi2)
    (h7 : (lo2 : Int) ≤ idx) (h8 : idx < (hi2 : Int)) : c2 = c := by
  by_contra hne
  rcases Nat.lt_or_ge c2 c with hlt | hge
  · have : hi2 ≤ lo := sorted_get_mono b hs (c2 + 1) c hi2 lo (by omega) h6 h1
    omega
  · have hlt : c < c2 := by omega
    have : hi ≤ lo2 := sorted_get_mono b hs (c + 1) c2 hi lo2 (by omega) h2 h5
    omega

/-! ### Linear-search (`img_idx_to_case_idx`) lemmas -/

theorem locateFrom_some (idx : Int) :
    ∀ (b : List Nat) (k m : Nat), locateFrom idx b k = some m →
      ∃ j lo hi, m = k + j ∧ b[j]? = some lo ∧ b[j + 1]? = some hi ∧
        (lo : Int) ≤ idx ∧ idx < (hi : Int) := by
  intro b
  induction b with
  | nil => intro k m h; simp [locateFrom] at h
  | cons b0 tl ih =>
    intro k m h
    cases tl with
    | nil => simp [locateFrom] at h
    | cons b1 rest =>
      rw [locateFrom] at h
      split at h
      · rename_i hc
        cases h
        exact ⟨0, b0, b1, by omega, by simp, by simp, hc.1, hc.2⟩
      · obtain ⟨j, lo, hi, hm, hj1, hj2, hj3, hj4⟩ := ih (k + 1) m h
        exact ⟨j + 1, lo, hi, by omega, by simpa using hj1, by simpa using hj2, hj3, hj4⟩

theorem locateFrom_total (idx : Int) :
    ∀ (b : List Nat) (k b0 bl : Nat), b[0]? = some b0 → (b0 : Int) ≤ idx →
      b.getLast? = some bl → idx < (bl : Int) →
      ∃ m, locateFrom idx b k = some m := by
  intro b
  induction b with
  | nil => intro k b0 bl h; simp at h
  | cons x tl ih =>
    intro k b0 bl h h0 hl hbl
    have hx : x = b0 := by simpa using h
    subst hx
    cases tl with
    | nil =>
      rw [List.getLast?_singleton] at hl
      cases hl
      omega
    | cons b1 rest =>
      by_cases hc : (x : Int) ≤ idx ∧ idx < (b1 : Int)
      · exact ⟨k, by rw [locateFrom, if_pos hc]⟩
      · have hb1 : (b1 : Int) ≤ idx := by
          push_neg at hc
          exact hc h0
        rw [List.getLast?_cons_cons] at hl
        obtain ⟨m, hm⟩ := ih (k + 1) b1 bl (by simp) hb1 hl hbl
        exact ⟨m, by rw [locateFrom, if_neg hc]; exact hm⟩

theorem locateFrom_none_of_ge (idx : Int) :
    ∀ (b : List Nat) (k : Nat), (∀ x ∈ b, (x : Int) ≤ idx) →
      locateFrom idx b k = none := by
  intro b
  induction b with
  | nil => intro k _; simp [locateFrom]
  | cons b0 tl ih =>
    intro k hall
    cases tl with
    | nil => simp [locateFrom]
    | cons b1 rest =>
      have hb1 : (b1 : Int) ≤ idx := hall b1 (by simp)
      rw [locateFrom, if_neg (by omega)]
      exact ih (k + 1) (fun x hx => hall x (List.mem_cons_of_mem b0 hx))

theorem locateFrom_none_of_neg (idx : Int) (hidx : idx < 0) :
    ∀ (b : List Nat) (k : Nat), locateFrom idx b k = none := by
  intro b
  induction b with
  | nil => intro k; simp [locateFrom]
  | cons b0 tl ih =>
    intro k
    cases tl with
    | nil => simp [locateFrom]
    | cons b1 rest =>
      rw [locateFrom, if_neg (by omega)]
      exact ih (k + 1)

/-! ### Range slicing lemmas -/

theorem range'_take_min : ∀ (m a b : Nat), (List.range' a m).take b = List.range' a (min b m) := by
  intro m
  induction m with
  | zero => intro a b; simp
  | succ m ih =>
    intro a b
    cases b with
    | zero => simp
    | succ b =>
      rw [List.range'_succ, List.take_succ_cons, ih (a + 1) b]
      have : min (b + 1) (m + 1) = min b m + 1 := by omega
      rw [this, List.range'_succ]

theorem range_drop (n a : Nat) : (List.range n).drop a = List.range' a (n - a) := by
  rcases le_or_lt a n with h | h
  · have e1 : List.range' 0 a ++ List.range' a (n - a) = List.range' 0 n := by
      have e2 := List.range'_append 0 a (n - a) 1
      simp only [Nat.one_mul, Nat.zero_add] at e2
      rw [e2]
      congr 1
      omega
    have e3 : (List.range n).drop a = (List.range' 0 a ++ List.range' a (n - a)).drop a := by
      rw [e1, List.range_eq_range']
    rw [e3]
    exact List.drop_left' (by rw [List.length_range'])
  · rw [List.drop_eq_nil_of_le (by simpa using Nat.le_of_lt h)]
    have : n - a = 0 := by omega
    rw [this]
    rfl

theorem range_drop_take (n a b : Nat) :
    ((List.range n).drop a).take b = List.range' a (min b (n - a)) := by
  rw [range_drop, range'_take_min]

/-! ### Structural lemmas for `read_case`, `read_npy`, `get_data` -/

theorem read_case_parts (cfg : Config) (c : Nat) (t : Bool) (i l : List Ref) (n : Nat)
    (h : read_case cfg c t = some (i, l, n)) :
    n = i.length ∧ l = (if t then [] else i) ∧
      ∃ lo hi, trimOf cfg c = some (lo, hi) ∧
        i = ((sliceRefs c (cfg.rawCount c)).drop lo).take (hi - lo) := by
  unfold read_case at h
  cases hp : trimOf cfg c with
  | none => rw [hp] at h; simp at h
  | some p =>
    obtain ⟨lo, hi⟩ := p
    rw [hp] at h
    simp only [Option.map_some] at h
    cases h
    refine ⟨rfl, ?_, lo, hi, rfl, rfl⟩
    cases t <;> simp

theorem read_npy_spec (cfg : Config) :
    ∀ (cs : List Nat) (t : Bool) (i l : List Ref) (n : List Nat),
      read_npy cfg cs t = some (i, l, n) →
      i.length = n.sum ∧ n.length = cs.length ∧
        (t = false → l = i) ∧ (t = true → l = []) := by
  intro cs
  induction cs with
  | nil =>
    intro t i l n h
    rw [read_npy] at h
    cases h
    simp
  | cons c rest ih =>
    intro t i l n h
    rw [read_npy] at h
    cases hc : read_case cfg c t with
    | none => rw [hc] at h; simp at h
    | some ctrip =>
      obtain ⟨ci, cl, cn⟩ := ctrip
      cases hr : read_npy cfg rest t with
      | none => rw [hc, hr] at h; simp at h
      | some rtrip =>
        obtain ⟨ri, rl, rn⟩ := rtrip
        rw [hc, hr] at h
        simp only [Option.bind_some, Option.some_inj, Prod.mk.injEq] at h
        obtain ⟨rfl, rfl, rfl⟩ := h
        obtain ⟨hcn, hcl, _⟩ := read_case_parts cfg c t ci cl cn hc
        obtain ⟨hri, hrn, hrl, hrl2⟩ := ih t ri rl rn hr
        refine ⟨?_, ?_, ?_, ?_⟩
        · simp [List.sum_cons, hcn, hri]
        · simp [hrn]
        · intro ht
          subst ht
          rw [hcl, hrl rfl]
          simp
        · intro ht
          subst ht
          rw [hcl, hrl2 rfl]
          simp

theorem get_data_parts (cfg : Config) (ds : Dataset) (h : get_data cfg = some ds) :
    ∃ ti tl tn vi vl vn si sl sn,
      read_npy cfg cfg.train_case false = some (ti, tl, tn) ∧
      read_npy cfg cfg.valid_case false = some (vi, vl, vn) ∧
      read_npy cfg cfg.test_case true = some (si, sl, sn) ∧
      ds.imgs = ti ++ vi ++ si ∧
      ds.labels = tl ++ vl ++ sl ∧
      ds.train_indices = (List.range (ti ++ vi ++ si).length).take ti.length ∧
      ds.valid_indices = ((List.range (ti ++ vi ++ si).length).drop ti.length).take vi.length ∧
      ds.test_indices =
        ((List.range (ti ++ vi ++ si).length).drop (ti.length + vi.length)).take si.length ∧
      ds.case_slice_indices = cumSum (tn ++ vn ++ sn) ∧
      ds.rois = cfg.rois ∧ ds.stack_num = cfg.stack_num := by
  unfold get_data at h
  cases h1 : read_npy cfg cfg.train_case false with
  | none => rw [h1] at h; simp at h
  | some ttrip =>
    obtain ⟨ti, tl, tn⟩ := ttrip
    cases h2 : read_npy cfg cfg.valid_case false with
    | none => rw [h1, h2] at h; simp at h
    | some vtrip =>
      obtain ⟨vi, vl, vn⟩ := vtrip
      cases h3 : read_npy cfg cfg.test_case true with
      | none => rw [h1, h2, h3] at h; simp at h
      | some strip =>
        obtain ⟨si, sl, sn⟩ := strip
        rw [h1, h2, h3] at h
        simp only [Option.bind_some, Option.some_inj] at h
        refine ⟨ti, tl, tn, vi, vl, vn, si, sl, sn, rfl, rfl, rfl, ?_⟩
        cases h
        simp

/-! ### Derived invariants of the constructed dataset -/

theorem get_data_csi (cfg : Config) (ds : Dataset) (h : get_data cfg = some ds) :
    ∃ counts : List Nat, case_counts cfg = some counts ∧
      ds.case_slice_indices = cumSum counts ∧ counts.sum = ds.imgs.length := by
  obtain ⟨ti, tl, tn, vi, vl, vn, si, sl, sn, h1, h2, h3, himgs, _, _, _, _, hcsi, _, _⟩ :=
    get_data_parts cfg ds h
  refine ⟨tn ++ vn ++ sn, ?_, hcsi, ?_⟩
  · unfold case_counts
    rw [h1, h2, h3]
    rfl
  · obtain ⟨ht, _, _, _⟩ := read_npy_spec cfg cfg.train_case false ti tl tn h1
    obtain ⟨hv, _, _, _⟩ := read_npy_spec cfg cfg.valid_case false vi vl vn h2
    obtain ⟨hs, _, _, _⟩ := read_npy_spec cfg cfg.test_case true si sl sn h3
    rw [himgs]
    simp [List.sum_append, List.length_append, ht, hv, hs]

theorem get_data_boundaries (cfg : Config) (ds : Dataset) (h : get_data cfg = some ds) :
    ds.case_slice_indices[0]? = some 0 ∧
    List.Sorted (· ≤ ·) ds.case_slice_indices ∧
    ds.case_slice_indices.getLast? = some ds.imgs.length := by
  obtain ⟨counts, _, hcsi, hsum⟩ := get_data_csi cfg ds h
  rw [hcsi]
  exact ⟨cumSum_get_zero counts, cumSum_sorted counts, by rw [cumSum_getLast, hsum]⟩

/-- For every in-range index, the linear search lands on a bracketing
boundary pair. -/
theorem img_idx_bracket (cfg : Config) (ds : Dataset) (h : get_data cfg = some ds)
    (idx : Int) (h0 : 0 ≤ idx) (hN : idx < (ds.imgs.length : Int)) :
    ∃ lo hi, ds.case_slice_indices[img_idx_to_case_idx ds idx]? = some lo ∧
      ds.case_slice_indices[img_idx_to_case_idx ds idx + 1]? = some hi ∧
      (lo : Int) ≤ idx ∧ idx < (hi : Int) := by
  obtain ⟨hz, _, hlast⟩ := get_data_boundaries cfg ds h
  obtain ⟨m, hm⟩ :=
    locateFrom_total idx ds.case_slice_indices 0 0 ds.imgs.length hz (by omega) hlast hN
  obtain ⟨j, lo, hi, hmj, hj1, hj2, hj3, hj4⟩ :=
    locateFrom_some idx ds.case_slice_indices 0 m hm
  have hcase : img_idx_to_case_idx ds idx = j := by
    unfold img_idx_to_case_idx
    rw [hm]
    simpa using hmj
  rw [hcase]
  exact ⟨lo, hi, hj1, hj2, hj3, hj4⟩

theorem get_data_partition (cfg : Config) (ds : Dataset) (h : get_data cfg = some ds) :
    ds.train_indices = List.range' 0 ds.train_indices.length ∧
    ds.valid_indices = List.range' ds.train_indices.length ds.valid_indices.length ∧
    ds.test_indices =
      List.range' (ds.train_indices.length + ds.valid_indices.length) ds.test_indices.length ∧
    ds.train_indices.length + ds.valid_indices.length + ds.test_indices.length =
      ds.imgs.length := by
  obtain ⟨ti, tl, tn, vi, vl, vn, si, sl, sn, h1, h2, h3, himgs, _, htr, hva, hte, _, _, _⟩ :=
    get_data_parts cfg ds h
  have hA : ds.train_indices = List.range' 0 ti.length := by
    rw [htr, List.take_range]
    rw [show ti.length ⊓ (ti ++ vi ++ si).length = ti.length from by
      simp [List.length_append]]
    exact List.range_eq_range' ti.length
  have hB : ds.valid_indices = List.range' ti.length vi.length := by
    rw [hva, range_drop_take]
    congr 1
    simp only [List.length_append]
    omega
  have hC : ds.test_indices = List.range' (ti.length + vi.length) si.length := by
    rw [hte, range_drop_take]
    congr 1
    simp only [List.length_append]
    omega
  have hAl : ds.train_indices.length = ti.length := by rw [hA, List.length_range']
  have hBl : ds.valid_indices.length = vi.length := by rw [hB, List.length_range']
  have hCl : ds.test_indices.length = si.length := by rw [hC, List.length_range']
  refine ⟨?_, ?_, ?_, ?_⟩
  · rw [hAl]
    exact hA
  · rw [hAl, hBl]
    exact hB
  · rw [hAl, hBl, hCl]
    exact hC
  · rw [hAl, hBl, hCl, himgs]
    simp only [List.length_append]

/-! ### Pointwise description of the label remapping -/

/-- Each output pixel of `remapLabel` depends only on the pixel's value in the
original label array: canonical values `0..2` go to the position of
`spec_classes[value]` in the deduplicated `spec_class_idx`, anything else is
left unchanged. -/
theorem remapLabel_getElem? (spec label : List Nat) (hlen : spec.length = 3)
    (hne : spec ≠ [0, 1, 2]) (j o : Nat) (hj : label[j]? = some o) :
    (remapLabel spec label)[j]? =
      some (if o < 3 then (dedupFold spec).indexOf (spec.getD o 0) else o) := by
  obtain ⟨s0, s1, s2, rfl⟩ : ∃ a b c, spec = [a, b, c] := by
    rcases spec with _ | ⟨a, _ | ⟨b, _ | ⟨c, _ | ⟨d, r⟩⟩⟩⟩ <;> simp at hlen
    exact ⟨a, b, c, rfl⟩
  have key : ∀ (c v : Nat) (cur : List Nat) (w : Nat), cur[j]? = some w →
      (List.zipWith (fun o2 x => if o2 = c then v else x) label cur)[j]? =
        some (if o = c then v else w) := by
    intro c v cur w hw
    rw [zipWith_getElem?, hj, hw]
    rfl
  unfold remapLabel
  rw [if_neg hne]
  show (List.zipWith
      (fun o2 x => if o2 = 2 then (dedupFold [s0, s1, s2]).indexOf s2 else x) label
      (List.zipWith
        (fun o2 x => if o2 = 1 then (dedupFold [s0, s1, s2]).indexOf s1 else x) label
        (List.zipWith
          (fun o2 x => if o2 = 0 then (dedupFold [s0, s1, s2]).indexOf s0 else x)
          label label)))[j]? = _
  rw [key 2 _ _ _ (key 1 _ _ _ (key 0 _ _ _ hj))]
  rcases o with _ | _ | _ | o
  · simp
  · simp
  · simp
  · have hlt : ¬(o + 1 + 1 + 1 < 3) := by omega
    simp [hlt]

/-! ### Claim theorems -/

/-- C8: for the concrete configuration of two cases with raw slice counts 10
and 6 (ids 1 and 2), train=[1], valid=[2], no ROI table: N = 16,
case_boundaries = [0, 10, 16], the train index range is [0, 10) and the valid
index range is [10, 16); and reading global index 9 with stack_width = 3
produces the clamped window of raw indices [8, 9, 9]. -/
theorem kits_C8 :
    get_data cfgC8 = some dsC8
    ∧ dsC8.imgs.length = 16
    ∧ dsC8.case_slice_indices = [0, 10, 16]
    ∧ dsC8.train_indices = List.range' 0 10
    ∧ dsC8.valid_indices = List.range' 10 6
    ∧ stack_indices dsC8 9 = some [8, 9, 9] := by decide

/-- C2: the claim fails on the code — `get_stack_img` builds the ROI lookup
key from the case ORDINAL `case_idx`, not from the owning case's id.  In
`cfgC2` the train cases are ids [1, 0]; global index 3 is owned by case id 0
(its image reference is (0, 1)) whose ROI record is {min_z 1, max_z 3}, yet
the sample carries the record stored under key 1 (the ordinal), namely
{min_z 0, max_z 3}. -/
theorem kits_C2 :
    (get_data cfgC2).map (fun ds => ds.imgs[3]?) = some (some (0, 1))
    ∧ ((get_data cfgC2).bind (fun ds => get_stack_img ds 3)).map (fun s => s.roi) =
        some (some ⟨0, 3⟩)
    ∧ lookupRoi [(1, ⟨0, 3⟩), (0, ⟨1, 3⟩)] 0 = some ⟨1, 3⟩
    ∧ (⟨0, 3⟩ : ROI) ≠ ⟨1, 3⟩ := by decide

/-- C1 (amended): for every global index `idx` with `0 ≤ idx < N`,
`img_idx_to_case_idx` returns the unique case ordinal `c` with
`case_slice_indices[c] ≤ idx < case_slice_indices[c+1]`; for every `idx`
outside `[0, N)` (negative or `≥ N`) it returns the initial default 0 instead
of failing with an IndexOutOfRange error. -/
theorem kits_C1 (cfg : Config) (ds : Dataset) (h : get_data cfg = some ds) (idx : Int) :
    (0 ≤ idx → idx < (ds.imgs.length : Int) →
      ∃ lo hi, ds.case_slice_indices[img_idx_to_case_idx ds idx]? = some lo
        ∧ ds.case_slice_indices[img_idx_to_case_idx ds idx + 1]? = some hi
        ∧ (lo : Int) ≤ idx ∧ idx < (hi : Int)
        ∧ ∀ (c2 lo2 hi2 : Nat), ds.case_slice_indices[c2]? = some lo2 →
            ds.case_slice_indices[c2 + 1]? = some hi2 →
            (lo2 : Int) ≤ idx → idx < (hi2 : Int) → c2 = img_idx_to_case_idx ds idx)
    ∧ ((idx < 0 ∨ (ds.imgs.length : Int) ≤ idx) → img_idx_to_case_idx ds idx = 0) := by
  obtain ⟨hz, hsort, hlast⟩ := get_data_boundaries cfg ds h
  constructor
  · intro h0 hN
    obtain ⟨lo, hi, h1, h2, h3, h4⟩ := img_idx_bracket cfg ds h idx h0 hN
    exact ⟨lo, hi, h1, h2, h3, h4,
      fun c2 lo2 hi2 g1 g2 g3 g4 =>
        bracket_unique ds.case_slice_indices hsort idx _ lo hi c2 lo2 hi2
          h1 h2 h3 h4 g1 g2 g3 g4⟩
  · intro hout
    rcases hout with hneg | hge
    · unfold img_idx_to_case_idx
      rw [locateFrom_none_of_neg idx hneg ds.case_slice_indices 0]
      rfl
    · unfold img_idx_to_case_idx
      rw [locateFrom_none_of_ge idx ds.case_slice_indices 0 ?_]
      · rfl
      · intro x hx
        obtain ⟨i, hi⟩ := List.mem_iff_getElem?.mp hx
        have hxle : x ≤ ds.imgs.length :=
          sorted_le_getLast ds.case_slice_indices hsort i x ds.imgs.length hi hlast
        omega

/-- C1 counterexample: in the `cfgC8` dataset (N = 16, boundaries
[0, 10, 16]), the out-of-range index 99 does not raise: the search returns
the ordinary case ordinal 0, whose boundary pair [0, 10) does not even
contain 99. -/
theorem kits_C1_counterexample :
    (get_data cfgC8).map (fun ds => img_idx_to_case_idx ds 99) = some 0
    ∧ (get_data cfgC8).map (fun ds => ds.imgs.length) = some 16
    ∧ (get_data cfgC8).map (fun ds => ds.case_slice_indices) = some [0, 10, 16]
    ∧ ¬((99 : Int) < ((10 : Nat) : Int)) := by decide

/-- C1 witness: the amended theorem applied to `cfgC8` at the negative
index -1, which yields the default ordinal 0. -/
theorem kits_C1_witness :
    get_data cfgC8 = some dsC8 ∧ img_idx_to_case_idx dsC8 (-1) = 0 :=
  ⟨by decide, (kits_C1 cfgC8 dsC8 (by decide) (-1)).2 (Or.inl (by decide))⟩

/-- Concatenating the three contiguous ranges recovers the full range. -/
theorem range'_triple (a b c : Nat) :
    List.range' 0 a ++ List.range' a b ++ List.range' (a + b) c =
      List.range (a + b + c) := by
  have e1 := List.range'_append 0 a b 1
  simp only [Nat.one_mul, Nat.zero_add] at e1
  have e2 := List.range'_append 0 (a + b) c 1
  simp only [Nat.one_mul, Nat.zero_add] at e2
  rw [List.range_eq_range']
  calc List.range' 0 a ++ List.range' a b ++ List.range' (a + b) c
      = List.range' 0 (b + a) ++ List.range' (a + b) c := by rw [e1]
    _ = List.range' 0 (a + b) ++ List.range' (a + b) c := by rw [Nat.add_comm b a]
    _ = List.range' 0 (c + (a + b)) := e2
    _ = List.range' 0 (a + b + c) := by rw [Nat.add_comm c (a + b)]

/-- C4: after construction, case_slice_indices starts at 0, each next entry
adds the corresponding case's slice count, the table is non-decreasing and
ends at N; and the three subset index lists are the contiguous ranges
[0, len(train)), [len(train), len(train)+len(valid)),
[len(train)+len(valid), N) — pairwise disjoint, order-preserving, with union
exactly [0, N). -/
theorem kits_C4 (cfg : Config) (ds : Dataset) (counts : List Nat)
    (h : get_data cfg = some ds) (hc : case_counts cfg = some counts) :
    ds.case_slice_indices[0]? = some 0
    ∧ (∀ (i ci bi : Nat), counts[i]? = some ci → ds.case_slice_indices[i]? = some bi →
        ds.case_slice_indices[i + 1]? = some (bi + ci))
    ∧ List.Sorted (· ≤ ·) ds.case_slice_indices
    ∧ ds.case_slice_indices.getLast? = some ds.imgs.length
    ∧ ds.train_indices = List.range' 0 ds.train_indices.length
    ∧ ds.valid_indices = List.range' ds.train_indices.length ds.valid_indices.length
    ∧ ds.test_indices =
        List.range' (ds.train_indices.length + ds.valid_indices.length) ds.test_indices.length
    ∧ ds.train_indices.length + ds.valid_indices.length + ds.test_indices.length =
        ds.imgs.length
    ∧ ds.train_indices ++ ds.valid_indices ++ ds.test_indices = List.range ds.imgs.length
    ∧ (∀ x : Nat, (x ∈ ds.train_indices → x ∉ ds.valid_indices ∧ x ∉ ds.test_indices)
          ∧ (x ∈ ds.valid_indices → x ∉ ds.test_indices)) := by
  obtain ⟨hz, hsort, hlast⟩ := get_data_boundaries cfg ds h
  obtain ⟨counts2, hc2, hcsi, _⟩ := get_data_csi cfg ds h
  have hcounts : counts2 = counts := by
    rw [hc2] at hc
    exact Option.some_inj.mp hc
  subst hcounts
  obtain ⟨hA, hB, hC, hsum⟩ := get_data_partition cfg ds h
  refine ⟨hz, ?_, hsort, hlast, hA, hB, hC, hsum, ?_, ?_⟩
  · intro i ci bi hci hbi
    rw [hcsi] at hbi ⊢
    obtain ⟨bi2, hbi2, hsucc⟩ := cumSum_get_succ counts2 i ci hci
    rw [hbi2] at hbi
    cases hbi
    exact hsucc
  · conv_lhs => rw [hA, hB, hC]
    rw [range'_triple, hsum]
  · intro x
    constructor
    · intro hx
      rw [hA, List.mem_range'_1] at hx
      constructor
      · rw [hB, List.mem_range'_1]
        omega
      · rw [hC, List.mem_range'_1]
        omega
    · intro hx
      rw [hB, List.mem_range'_1] at hx
      rw [hC, List.mem_range'_1]
      omega

/-- C4 witness: the invariants evaluated on the concrete `cfgC8` dataset. -/
theorem kits_C4_witness :
    dsC8.case_slice_indices.getLast? = some dsC8.imgs.length :=
  (kits_C4 cfgC8 dsC8 [10, 6] (by decide) (by decide)).2.2.2.1

/-- C3: for every valid center index owned by case c with slice range
[lo, hi) = [case_slice_indices[c], case_slice_indices[c+1]), every raw slice
index actually read by get_stack_img lies in [lo, hi): any window index below
lo is replaced by lo and any window index at or above hi is replaced by
hi - 1 (so near a case boundary the same edge slice appears multiple times in
the stack). -/
theorem kits_C3 (cfg : Config) (ds : Dataset) (h : get_data cfg = some ds) (idx : Int)
    (h0 : 0 ≤ idx) (hN : idx < (ds.imgs.length : Int)) :
    ∃ (lo hi : Nat) (l : List Int),
      ds.case_slice_indices[img_idx_to_case_idx ds idx]? = some lo
      ∧ ds.case_slice_indices[img_idx_to_case_idx ds idx + 1]? = some hi
      ∧ stack_indices ds idx = some l
      ∧ (∀ i ∈ l, (lo : Int) ≤ i ∧ i < (hi : Int))
      ∧ (∀ i : Int, (i < (lo : Int) → clampToCase lo hi i = lo)
            ∧ ((hi : Int) ≤ i → clampToCase lo hi i = (hi : Int) - 1)) := by
  obtain ⟨lo, hi, h1, h2, h3, h4⟩ := img_idx_bracket cfg ds h idx h0 hN
  refine ⟨lo, hi, (windowRange ds idx).map (clampToCase lo hi), h1, h2, ?_, ?_, ?_⟩
  · simp only [stack_indices, h1, h2]
    rfl
  · intro i hil
    obtain ⟨w, _, rfl⟩ := List.mem_map.mp hil
    unfold clampToCase
    split_ifs <;> omega
  · intro i
    constructor
    · intro hlt
      unfold clampToCase
      rw [if_pos hlt]
    · intro hge
      unfold clampToCase
      rw [if_neg (by omega), if_pos hge]

/-- C3 witness: the clamping theorem applied to `cfgC8` at center index 9
(the last slice of case ordinal 0). -/
theorem kits_C3_witness :
    ∃ (lo hi : Nat) (l : List Int),
      dsC8.case_slice_indices[img_idx_to_case_idx dsC8 9]? = some lo
      ∧ dsC8.case_slice_indices[img_idx_to_case_idx dsC8 9 + 1]? = some hi
      ∧ stack_indices dsC8 9 = some l
      ∧ (∀ i ∈ l, (lo : Int) ≤ i ∧ i < (hi : Int))
      ∧ (∀ i : Int, (i < (lo : Int) → clampToCase lo hi i = lo)
            ∧ ((hi : Int) ≤ i → clampToCase lo hi i = (hi : Int) - 1)) :=
  kits_C3 cfgC8 dsC8 (by decide) 9 (by decide) (by decide)

/-- Slicing the reference list of a case commutes with slicing the z range. -/
theorem sliceRefs_slice (c L lo b : Nat) :
    ((sliceRefs c L).drop lo).take b =
      (((List.range L).drop lo).take b).map (fun z => (c, z)) := by
  unfold sliceRefs
  rw [← List.map_drop, ← List.map_take]

/-- C5: for every case with an ROI record, the kept slices are exactly those
with z in [max(0, min_z - e), min(raw_slice_count, max_z + e)) (here the lower
bound is `min_z - e` in truncated subtraction); the recorded count equals
that interval's size; the count is monotone in the error range and never
exceeds the raw slice count. -/
theorem kits_C5 (cfg : Config) (c : Nat) (tbl : List (Nat × ROI)) (roi : ROI)
    (i l : List Ref) (n : Nat)
    (ht : cfg.rois = some tbl) (hr : lookupRoi tbl c = some roi)
    (h : read_case cfg c false = some (i, l, n)) :
    i = (List.range' (roi.min_z - cfg.roi_error_range)
          (visCount (cfg.rawCount c) roi cfg.roi_error_range)).map (fun z => (c, z))
    ∧ n = visCount (cfg.rawCount c) roi cfg.roi_error_range
    ∧ (∀ e1 e2 : Nat, e1 ≤ e2 →
        visCount (cfg.rawCount c) roi e1 ≤ visCount (cfg.rawCount c) roi e2)
    ∧ (∀ e : Nat, visCount (cfg.rawCount c) roi e ≤ cfg.rawCount c) := by
  obtain ⟨hn, _, lo, hi, htrim, hslice⟩ := read_case_parts cfg c false i l n h
  have htrim2 : trimOf cfg c =
      some (trimBounds (cfg.rawCount c) roi cfg.roi_error_range) := by
    unfold trimOf
    rw [ht]
    simp only
    rw [hr]
    rfl
  rw [htrim2] at htrim
  have hpair := Option.some_inj.mp htrim
  unfold trimBounds at hpair
  cases hpair
  have hmin :
      min (min (cfg.rawCount c) (roi.max_z + cfg.roi_error_range) -
            (roi.min_z - cfg.roi_error_range))
          (cfg.rawCount c - (roi.min_z - cfg.roi_error_range)) =
        visCount (cfg.rawCount c) roi cfg.roi_error_range := by
    unfold visCount trimBounds
    simp only
    omega
  refine ⟨?_, ?_, ?_, ?_⟩
  · rw [hslice, sliceRefs_slice, range_drop_take, hmin]
  · rw [hn, hslice, sliceRefs_slice, range_drop_take, hmin, List.length_map,
      List.length_range']
  · intro e1 e2 he
    unfold visCount trimBounds
    simp only
    omega
  · intro e
    unfold visCount trimBounds
    simp only
    omega

/-- C5 witness: the 10-slice case with ROI {2, 8} and error range 1 keeps
exactly 8 slices. -/
theorem kits_C5_witness : (8 : Nat) = visCount 10 ⟨2, 8⟩ 1 :=
  (kits_C5 cfgC5 0 [(0, ⟨2, 8⟩)] ⟨2, 8⟩ iC5 iC5 8 rfl rfl (by decide)).2.1

/-- C6: the label remapping is the identity when spec_classes = [0,1,2];
otherwise every pixel whose original value is a canonical class c in {0,1,2}
is rewritten to the position of spec_classes[c] in the first-occurrence-order
deduplicated value list, with the output depending only on the original value
(masks are computed before any rewrite); in particular with
spec_classes = [0,1,1], tumor (2) and kidney (1) pixels get the same output
value 1 while background (0) stays 0. -/
theorem kits_C6 (spec label : List Nat) (hlen : spec.length = 3) :
    (spec = [0, 1, 2] → remapLabel spec label = label)
    ∧ (spec ≠ [0, 1, 2] → ∀ (j o : Nat), label[j]? = some o →
        (remapLabel spec label)[j]? =
          some (if o < 3 then (dedupFold spec).indexOf (spec.getD o 0) else o))
    ∧ (spec = [0, 1, 1] → ∀ (j o : Nat), label[j]? = some o → o < 3 →
        (remapLabel spec label)[j]? = some (if o = 0 then 0 else 1)) := by
  refine ⟨?_, ?_, ?_⟩
  · intro he
    unfold remapLabel
    rw [if_pos he]
  · intro hne j o hj
    exact remapLabel_getElem? spec label hlen hne j o hj
  · intro he j o hj ho
    subst he
    rw [remapLabel_getElem? [0, 1, 1] label rfl (by decide) j o hj]
    interval_cases o <;> decide

/-- C6 witness: with spec_classes = [0,1,1] a tumor pixel (value 2) is
rewritten to 1, the kidney value. -/
theorem kits_C6_witness :
    (remapLabel [0, 1, 1] [2, 0, 1, 5])[0]? = some 1 :=
  (kits_C6 [0, 1, 1] [2, 0, 1, 5] (by decide)).2.2 rfl 0 2 (by decide) (by decide)

/-- C10: for every non-identity spec_classes of length 3 (with values in the
canonical class range), every remapped pixel that was canonical lands in
[0, D) where D is the number of distinct spec_classes values; and D equals
the length of get_classes_name(spec=True), hence num_classes. -/
theorem kits_C10 (spec label : List Nat) (hlen : spec.length = 3)
    (hne : spec ≠ [0, 1, 2]) (hv : ∀ i ∈ spec, i < 3) :
    (∀ (j o p : Nat), label[j]? = some o → o < 3 →
        (remapLabel spec label)[j]? = some p → p < (dedupFold spec).length)
    ∧ (get_classes_name spec).length = (dedupFold spec).length := by
  constructor
  · intro j o p hj ho hp
    rw [remapLabel_getElem? spec label hlen hne j o hj, if_pos ho] at hp
    cases hp
    apply List.indexOf_lt_length.mpr
    apply mem_dedupFold
    have hol : o < spec.length := by omega
    rw [List.getD_eq_getElem spec 0 hol]
    exact List.getElem_mem hol
  · obtain ⟨s0, s1, s2, rfl⟩ : ∃ a b c, spec = [a, b, c] := by
      rcases spec with _ | ⟨a, _ | ⟨b, _ | ⟨c, _ | ⟨d, r⟩⟩⟩⟩ <;> simp at hlen
      exact ⟨a, b, c, rfl⟩
    have h0 : s0 < 3 := hv s0 (by simp)
    have h1 : s1 < 3 := hv s1 (by simp)
    have h2 : s2 < 3 := hv s2 (by simp)
    interval_cases s0 <;> interval_cases s1 <;> interval_cases s2 <;>
      first
        | exact absurd rfl hne
        | decide

/-- C10 witness: for spec_classes = [0,1,1] the class-name list and the
distinct-value list have the same length (2). -/
theorem kits_C10_witness :
    (get_classes_name [0, 1, 1]).length = (dedupFold [0, 1, 1]).length :=
  (kits_C10 [0, 1, 1] [0] (by decide) (by decide) (by decide)).2

/-- C7: for every global index in the test subset the returned label is
absent (`_labels` is not consulted); for every global index in the train or
validation subset exactly the single label slice at that global index is
loaded (the label is not windowed — it is the reference co-indexed with the
image at the same global index). -/
theorem kits_C7 (cfg : Config) (ds : Dataset) (h : get_data cfg = some ds) (idx : Nat)
    (hN : idx < ds.imgs.length) :
    (idx ∈ ds.test_indices → stack_label ds idx = some none)
    ∧ ((idx ∈ ds.train_indices ∨ idx ∈ ds.valid_indices) →
        ∃ lref : Ref, ds.labels[idx]? = some lref ∧ ds.imgs[idx]? = some lref
          ∧ stack_label ds idx = some (some lref)) := by
  obtain ⟨ti, tl, tn, vi, vl, vn, si, sl, sn, h1, h2, h3, himgs, hlabels, htr, hva, hte,
    _, _, _⟩ := get_data_parts cfg ds h
  obtain ⟨hA, hB, hC, hsum⟩ := get_data_partition cfg ds h
  obtain ⟨_, _, htl, _⟩ := read_npy_spec cfg cfg.train_case false ti tl tn h1
  obtain ⟨_, _, hvl, _⟩ := read_npy_spec cfg cfg.valid_case false vi vl vn h2
  obtain ⟨_, _, _, hsl⟩ := read_npy_spec cfg cfg.test_case true si sl sn h3
  rw [htl rfl, hvl rfl, hsl rfl, List.append_nil] at hlabels
  have hTl : ds.train_indices.length = ti.length := by
    rw [htr]
    simp only [List.length_take, List.length_append, List.length_range]
    omega
  have hVl : ds.valid_indices.length = vi.length := by
    rw [hva]
    simp only [List.length_take, List.length_drop, List.length_append, List.length_range]
    omega
  constructor
  · intro hmem
    unfold stack_label
    rw [if_pos (List.mem_map_of_mem (fun n : Nat => (n : Int)) hmem)]
  · intro hmem
    have hAB : idx < ti.length + vi.length := by
      rcases hmem with hm | hm
      · rw [hA, List.mem_range'_1] at hm
        omega
      · rw [hB, List.mem_range'_1] at hm
        omega
    have hnt : ¬((idx : Int) ∈ ds.test_indices.map (fun n : Nat => (n : Int))) := by
      intro hint
      obtain ⟨y, hy, hyx⟩ := List.mem_map.mp hint
      have hyi : y = idx := by exact_mod_cast hyx
      subst hyi
      rw [hC, List.mem_range'_1] at hy
      omega
    have hlen2 : ds.labels.length = ti.length + vi.length := by
      rw [hlabels, List.length_append]
    have hidxlen : idx < ds.labels.length := by omega
    refine ⟨ds.labels[idx], List.getElem?_eq_getElem hidxlen, ?_, ?_⟩
    · rw [himgs, List.getElem?_append_left (by rw [List.length_append]; omega)]
      rw [← hlabels, List.getElem?_eq_getElem hidxlen]
    · unfold stack_label
      rw [if_neg hnt]
      unfold pyGet
      rw [if_pos (by omega)]
      rw [Int.toNat_natCast, List.getElem?_eq_getElem hidxlen]
      rfl

/-- C7 witness: in the `cfgC8` dataset, global index 0 (a train index) loads
exactly the co-indexed label slice (1, 0). -/
theorem kits_C7_witness :
    ∃ lref : Ref, dsC8.labels[0]? = some lref ∧ dsC8.imgs[0]? = some lref
      ∧ stack_label dsC8 0 = some (some lref) :=
  (kits_C7 cfgC8 dsC8 (by decide) 0 (by decide)).2 (Or.inl (by decide))

/-- C9: no per-access read mutates the metadata built at construction — with
the object state threaded explicitly, `__getitem__` returns the state it was
given, and an immediate second read of the same index returns the same
sample and state. -/
theorem kits_C9 (tf : Transforms) (dft : Sample → Sample) (ds : Dataset) (idx : Int)
    (s : Sample) (ds2 : Dataset) (h : getItem tf dft ds idx = some (s, ds2)) :
    ds2 = ds ∧ getItem tf dft ds2 idx = some (s, ds2) := by
  unfold getItem get_stack_img_state at h
  cases hg : get_stack_img ds idx with
  | none =>
    rw [hg] at h
    simp at h
  | some s0 =>
    rw [hg] at h
    simp only [Option.map_some', Option.bind_eq_bind, Option.some_bind, Option.some_inj,
      Prod.mk.injEq] at h
    obtain ⟨hs, hd⟩ := h
    subst hd
    subst hs
    refine ⟨rfl, ?_⟩
    unfold getItem get_stack_img_state
    rw [hg]
    rfl

/-- C9 witness: reading index 0 of the `cfgC8` dataset (no configured
transforms, identity default transform) leaves the dataset state unchanged. -/
theorem kits_C9_witness :
    dsC8 = dsC8 ∧ getItem tfNone id dsC8 0 = some (sC8, dsC8) :=
  kits_C9 tfNone id dsC8 0 sC8 dsC8 (by decide)

end KiTS19
